import Mathlib

attribute [local semireducible] Rat.add Rat.mul Rat.sub Rat.inv
set_option synthInstance.maxSize 2000
set_option maxRecDepth 8000

/-!
Verification of the core plotting logic of `doped/plotting.py`.

The embedding models Python floats as rationals (`ℚ`), Python dicts as
association lists updated in insertion order, and a raised Python exception as
`none` in an `Option` result.  The external `DefectPhaseDiagram` collaborator
(an out-of-scope data source per the spec) is modelled as a structure carrying
the fields the plotting code reads: `entries`, `stable_entries`,
`transition_level_map`, `band_gap` and the formation-energy oracle
`_formation_energy(entry, chemical_potentials, fermi_level)`.

The local variables `form_en`, `fe_left`, `fe_right` of
`_get_formation_energy_lines` live in function scope in Python, so their values
persist across loop iterations and across defect species; they are threaded
through the embedding as `Option ℚ` fields (`none` = not yet assigned, so that
reading them raises `UnboundLocalError`, modelled as an overall `none` result).
-/

/-- A defect entry of the external diagram: a (species name, charge state) pair. -/
structure DefectEntry where
  name : String
  charge_state : Int
deriving DecidableEq

/-- The slice of the external `DefectPhaseDiagram` read by the plotting code.
`χ` is the type of the chemical-potential argument, which the plotting code
only passes through to the formation-energy oracle. -/
structure DefectPhaseDiagram (χ : Type) where
  entries : List DefectEntry
  stable_entries : String → List DefectEntry
  transition_level_map : List (String × List (ℚ × List Int))
  band_gap : ℚ
  formation_energy : DefectEntry → χ → ℚ → ℚ

/-- Python `s.rsplit(sep, 1)[0]` for the single-character separators the
source uses (`"@"` and `"^"`): everything before the last occurrence of `sep`,
or `s` itself when `sep` does not occur in `s`. -/
def rsplitHead (sep : Char) (s : String) : String :=
  if sep ∈ s.data then
    ⟨(((s.data.reverse).dropWhile (fun c => ¬ c = sep)).drop 1).reverse⟩
  else s

/-- Python dict assignment `m[k] = v`: replace the value in place if the key
exists (keeping its position), else append the binding at the end. -/
def assocSet {α : Type} (m : List (String × α)) (k : String) (v : α) :
    List (String × α) :=
  match m with
  | [] => [(k, v)]
  | (k', v') :: rest => if k' = k then (k, v) :: rest else (k', v') :: assocSet rest k v

/-- Python dict lookup `m[k]` for string keys; `none` models a `KeyError`. -/
def lookupStr {α : Type} (m : List (String × α)) (k : String) : Option α :=
  match m with
  | [] => none
  | (k', v) :: rest => if k' = k then some v else lookupStr rest k

/-- Python dict lookup `m[k]` for Fermi-level (float) keys. -/
def lookupQ (m : List (ℚ × List Int)) (k : ℚ) : Option (List Int) :=
  match m with
  | [] => none
  | (k', v) :: rest => if k' = k then some v else lookupQ rest k

/-- The source's `lower_cap = -100`: arbitrary value the lines are extended to on the left. -/
def lower_cap : ℚ := -100

/-- The source's `upper_cap = 100`: arbitrary value the lines are extended to on the right. -/
def upper_cap : ℚ := 100

/-- The formation-energy oracle with the chemical potentials applied:
`defect_phase_diagram._formation_energy(entry, chemical_potentials=dft_chempots,
fermi_level=·)`. -/
def efOf {χ : Type} (dpd : DefectPhaseDiagram χ) (dft_chempots : χ) :
    DefectEntry → ℚ → ℚ :=
  fun defect_entry fermi_level => dpd.formation_energy defect_entry dft_chempots fermi_level

/-- The dict key `f"{defect_entry.name}_{defect_entry.charge_state}"` used for
`all_lines_xy`. -/
def entryKey (defect_entry : DefectEntry) : String :=
  defect_entry.name ++ "_" ++ toString defect_entry.charge_state

/-- The first loop of `_get_formation_energy_lines`: for every defect entry it
stores the two-point line `([lower_cap, upper_cap], [E_f(lower_cap),
E_f(upper_cap)])` under the entry's key, and extends
`all_entries_y_range_vals` with the energies at the two `xlim` window edges.
The `extend` sits inside the `for x_extrem in [lower_cap, upper_cap]` loop in
the source, so each window-edge energy is accumulated twice per entry. -/
def buildAllLines {χ : Type} (dpd : DefectPhaseDiagram χ) (dft_chempots : χ)
    (xlim : ℚ × ℚ) : List (String × (List ℚ × List ℚ)) × List ℚ :=
  dpd.entries.foldl
    (fun acc defect_entry =>
      (assocSet acc.1 (entryKey defect_entry)
        ([lower_cap, upper_cap],
         [efOf dpd dft_chempots defect_entry lower_cap,
          efOf dpd dft_chempots defect_entry upper_cap]),
       acc.2 ++
        [efOf dpd dft_chempots defect_entry xlim.1,
         efOf dpd dft_chempots defect_entry xlim.2,
         efOf dpd dft_chempots defect_entry xlim.1,
         efOf dpd dft_chempots defect_entry xlim.2]))
    ([], [])

/-- Model of `np.interp` at a single point over the vertices `(x, y)` of a polyline,
assuming the x-coordinates are increasing; outside their range it clamps to
the first/last y-value.  `np.interp` raises on an empty coordinate list; that
case is unreachable here because every stored polyline has at least two
points, so an arbitrary value is returned for it. -/
def np_interp (x : ℚ) : List (ℚ × ℚ) → ℚ
  | [] => 0
  | [(_, y0)] => y0
  | (x0, y0) :: (x1, y1) :: rest =>
    if x ≤ x0 then y0
    else if x ≤ x1 then y0 + (y1 - y0) * (x - x0) / (x1 - x0)
    else np_interp x ((x1, y1) :: rest)

/-- Model of `_get_in_gap_yvals`: sample the polyline by linear interpolation at
`np.linspace(x_range[0], x_range[1], 100)`, i.e. at the 100 points
`x_range.1 + (x_range.2 - x_range.1) * i / 99` for `i = 0, …, 99`. -/
def _get_in_gap_yvals (x_coords y_coords : List ℚ) (x_range : ℚ × ℚ) : List ℚ :=
  (List.range 100).map
    (fun i => np_interp (x_range.1 + (x_range.2 - x_range.1) * i / 99)
      (x_coords.zip y_coords))

/-- Model of `for defect_entry in stable_entries: if defect_entry.charge_state == charge:
…` — the entry whose assignment survives the loop, i.e. the last entry with the
given charge state (`none` when no entry matches). -/
def lastMatch (stable : List DefectEntry) (charge : Int) : Option DefectEntry :=
  stable.foldl
    (fun acc defect_entry =>
      if defect_entry.charge_state = charge then some defect_entry else acc)
    none

/-- A matching loop that assigns one local on each match, starting from the
local's current (possibly unassigned) value. -/
def assignLoop1 (stable : List DefectEntry) (charge : Int) (f : DefectEntry → ℚ)
    (init : Option ℚ) : Option ℚ :=
  stable.foldl
    (fun acc defect_entry =>
      if defect_entry.charge_state = charge then some (f defect_entry) else acc)
    init

/-- A matching loop that assigns two locals on each match (as the boundary
loops assign `form_en` together with `fe_left` or `fe_right`). -/
def assignLoop2 (stable : List DefectEntry) (charge : Int) (f g : DefectEntry → ℚ)
    (init : Option ℚ × Option ℚ) : Option ℚ × Option ℚ :=
  stable.foldl
    (fun acc defect_entry =>
      if defect_entry.charge_state = charge
      then (some (f defect_entry), some (g defect_entry))
      else acc)
    init

/-- Model of `max(def_tl[fl])`: the largest charge in the tie set at breakpoint `fl`;
`none` models a `KeyError` or `max` of an empty set raising. -/
def tieMaxCharge (def_tl : List (ℚ × List Int)) (fl : ℚ) : Option Int :=
  (lookupQ def_tl fl).bind (fun chargeset => chargeset.max?)

/-- Model of `min(def_tl[fl])`: the smallest charge in the tie set at breakpoint `fl`. -/
def tieMinCharge (def_tl : List (ℚ × List Int)) (fl : ℚ) : Option Int :=
  (lookupQ def_tl fl).bind (fun chargeset => chargeset.min?)

/-- The `for fl in org_x` loop of the non-empty branch: at each breakpoint the
maximum tied charge is selected, `form_en` is reassigned by the matching loop
(keeping its previous value when no stable entry matches), and the point
`(fl, form_en)` is emitted.  `form_en` is already bound (by the left-boundary
emission) when this loop starts, so it is threaded as a plain `ℚ`. -/
def tlPointsLoop (stable : List DefectEntry) (Ef : DefectEntry → ℚ → ℚ)
    (def_tl : List (ℚ × List Int)) : List ℚ → ℚ → Option (List (ℚ × ℚ) × ℚ)
  | [], form_en => some ([], form_en)
  | fl :: rest, form_en =>
    (tieMaxCharge def_tl fl).bind (fun charge =>
      (assignLoop1 stable charge (fun defect_entry => Ef defect_entry fl)
          (some form_en)).bind (fun v =>
        (tlPointsLoop stable Ef def_tl rest v).bind (fun pr =>
          some ((fl, v) :: pr.1, pr.2))))

/-- The non-empty-transition-level branch of the per-species loop of
`_get_formation_energy_lines`.  Returns the polyline `(x-values, y-values)`,
the list of values appended to `y_range_vals`, and the final values of the
`form_en`, `fe_left`, `fe_right` locals.  `none` models a raised exception
(reading a still-unassigned local, or `max`/`min` of an empty tie set). -/
def nonemptyEnvelope (stable : List DefectEntry) (Ef : DefectEntry → ℚ → ℚ)
    (xlim : ℚ × ℚ) (def_tl : List (ℚ × List Int))
    (form_en0 fe_left0 fe_right0 : Option ℚ) :
    Option ((List ℚ × List ℚ) × List ℚ × (Option ℚ × Option ℚ × Option ℚ)) :=
  match (def_tl.map Prod.fst).insertionSort (· ≤ ·) with
  | [] => none
  | x0 :: restx =>
    (tieMaxCharge def_tl x0).bind (fun first_charge =>
      (assignLoop2 stable first_charge
          (fun defect_entry => Ef defect_entry lower_cap)
          (fun defect_entry => Ef defect_entry xlim.1)
          (form_en0, fe_left0)).1.bind (fun form_en1 =>
        (assignLoop2 stable first_charge
            (fun defect_entry => Ef defect_entry lower_cap)
            (fun defect_entry => Ef defect_entry xlim.1)
            (form_en0, fe_left0)).2.bind (fun fe_left1 =>
          (tlPointsLoop stable Ef def_tl (x0 :: restx) form_en1).bind (fun pr =>
            (tieMinCharge def_tl
                ((x0 :: restx).getLast (List.cons_ne_nil x0 restx))).bind
              (fun last_charge =>
                (assignLoop2 stable last_charge
                    (fun defect_entry => Ef defect_entry upper_cap)
                    (fun defect_entry => Ef defect_entry xlim.2)
                    (some pr.2, fe_right0)).1.bind (fun form_enR =>
                  (assignLoop2 stable last_charge
                      (fun defect_entry => Ef defect_entry upper_cap)
                      (fun defect_entry => Ef defect_entry xlim.2)
                      (some pr.2, fe_right0)).2.bind (fun fe_rightR =>
                    some ((lower_cap :: pr.1.map Prod.fst ++ [upper_cap],
                           form_en1 :: pr.1.map Prod.snd ++ [form_enR]),
                          fe_left1 :: pr.1.map Prod.snd ++ [fe_rightR],
                          (some form_enR, some fe_left1, some fe_rightR)))))))))

/-- The state threaded through the per-species loop of
`_get_formation_energy_lines`: the `xy` dict, `y_range_vals`, the three
function-scope locals, and `ymin`. -/
structure EnvState where
  xy : List (String × (List ℚ × List ℚ))
  y_range_vals : List ℚ
  form_en : Option ℚ
  fe_left : Option ℚ
  fe_right : Option ℚ
  ymin : ℚ

/-- One iteration of the `for def_name, def_tl in transition_level_map.items()`
loop.  On the non-empty branch the polyline comes from `nonemptyEnvelope`; on
the empty branch the two-point line already stored in `all_lines_xy` under the
key `def_name.rsplit("@", 1)[0]` is reused (a missing key models a `KeyError`)
and `stable_entries[def_name][0]` is read (an empty list models an
`IndexError`).  Both branches then sample the polyline over
`(0, band_gap)` and lower `ymin` when every sampled value is negative (the
warning path of the source). -/
def processSpecies {χ : Type} (dpd : DefectPhaseDiagram χ) (dft_chempots : χ)
    (xlim : ℚ × ℚ) (all_lines_xy : List (String × (List ℚ × List ℚ)))
    (st : EnvState) (def_name : String) (def_tl : List (ℚ × List Int)) :
    Option EnvState :=
  match def_tl with
  | _ :: _ =>
    (nonemptyEnvelope (dpd.stable_entries def_name) (efOf dpd dft_chempots)
        xlim def_tl st.form_en st.fe_left st.fe_right).bind (fun out =>
      some { xy := assocSet st.xy def_name out.1
             y_range_vals := st.y_range_vals ++ out.2.1
             form_en := out.2.2.1
             fe_left := out.2.2.2.1
             fe_right := out.2.2.2.2
             ymin :=
               if (_get_in_gap_yvals out.1.1 out.1.2 (0, dpd.band_gap)).all
                   (fun y => decide (y < 0))
               then (_get_in_gap_yvals out.1.1 out.1.2 (0, dpd.band_gap)).foldl
                 min st.ymin
               else st.ymin })
  | [] =>
    (lookupStr all_lines_xy (rsplitHead '@' def_name)).bind (fun line =>
      match dpd.stable_entries def_name with
      | [] => none
      | defect_entry :: _ =>
        some { xy := assocSet st.xy def_name line
               y_range_vals := st.y_range_vals ++
                 [efOf dpd dft_chempots defect_entry xlim.1,
                  efOf dpd dft_chempots defect_entry xlim.2]
               form_en := st.form_en
               fe_left := st.fe_left
               fe_right := st.fe_right
               ymin :=
                 if (_get_in_gap_yvals line.1 line.2 (0, dpd.band_gap)).all
                     (fun y => decide (y < 0))
                 then (_get_in_gap_yvals line.1 line.2 (0, dpd.band_gap)).foldl
                   min st.ymin
                 else st.ymin })

/-- The per-species loop of `_get_formation_energy_lines`, iterating the
transition-level map in insertion order. -/
def runSpecies {χ : Type} (dpd : DefectPhaseDiagram χ) (dft_chempots : χ)
    (xlim : ℚ × ℚ) (all_lines_xy : List (String × (List ℚ × List ℚ))) :
    List (String × List (ℚ × List Int)) → EnvState → Option EnvState
  | [], st => some st
  | (def_name, def_tl) :: rest, st =>
    (processSpecies dpd dft_chempots xlim all_lines_xy st def_name def_tl).bind
      (fun st' => runSpecies dpd dft_chempots xlim all_lines_xy rest st')

/-- The state at entry of the per-species loop: empty `xy` and `y_range_vals`,
all three locals unassigned, `ymin = 0`. -/
def initEnvState : EnvState :=
  { xy := [], y_range_vals := [], form_en := none, fe_left := none,
    fe_right := none, ymin := 0 }

/-- Model of `_get_formation_energy_lines(defect_phase_diagram, dft_chempots, xlim)`:
returns `((xy, y_range_vals), (all_lines_xy, all_entries_y_range_vals), ymin)`;
`none` models an uncaught Python exception. -/
def _get_formation_energy_lines {χ : Type} (dpd : DefectPhaseDiagram χ)
    (dft_chempots : χ) (xlim : ℚ × ℚ) :
    Option ((List (String × (List ℚ × List ℚ)) × List ℚ) ×
            (List (String × (List ℚ × List ℚ)) × List ℚ) × ℚ) :=
  (runSpecies dpd dft_chempots xlim (buildAllLines dpd dft_chempots xlim).1
      dpd.transition_level_map initEnvState).bind (fun st =>
    some ((st.xy, st.y_range_vals), buildAllLines dpd dft_chempots xlim, st.ymin))

/-- Model of `_get_ylim_from_y_range_vals(y_range_vals, ymin=0, auto_labels=False)`.
`max`/`min` of an empty sequence raise a `ValueError` (modelled as `none`);
`spacer / ylim[1]` raises a `ZeroDivisionError` when `ylim[1]` is zero. -/
def _get_ylim_from_y_range_vals (y_range_vals : List ℚ) (ymin : ℚ)
    (auto_labels : Bool) : Option (ℚ × ℚ) :=
  match y_range_vals.max?, y_range_vals.min? with
  | some hi, some lo =>
    let window := hi - lo
    let spacer := (1 : ℚ)/10 * window
    let ylim := (ymin, hi + spacer)
    if auto_labels then
      if ylim.2 = 0 then none
      else some (if spacer / ylim.2 < 145/1000
                 then (ymin, hi * (117/100)) else ylim)
    else some ylim
  | _, _ => none

/-- Python `f"{s[:-3]}{c}{s[-3:]}"`: insert a character immediately before the
final three characters of `s` (before all of `s` when it is shorter). -/
def insertBeforeLast3 (s : String) (c : Char) : String :=
  ⟨s.data.take (s.data.length - 3) ++ c :: s.data.drop (s.data.length - 3)⟩

/-- The `while defect_name in legends_txt` loop of `_get_legends_txt`: starting
from `i = 1`, it increments `i` and inserts `chr(96 + i)` before the final
three characters until the name no longer collides.  Each pass lengthens the
name by one character, so `legends_txt.length + 1` rounds of fuel always
suffice to reach the exit condition. -/
def suffixWhile (legends_txt : List String) : Nat → Nat → String → String
  | 0, _, defect_name => defect_name
  | fuel + 1, i, defect_name =>
    if defect_name ∈ legends_txt then
      suffixWhile legends_txt fuel (i + 1)
        (insertBeforeLast3 defect_name (Char.ofNat (96 + (i + 1))))
    else defect_name

/-- The first-attempt label for a name: `_format_defect_name` without the site
index (the external formatter is the oracle `fmt`; `none` models it raising),
with the charge suffix stripped by `f"{name.rsplit('^', 1)[0]}$"` unless
`all_entries` is set; on a formatting failure the raw name is used
(`except Exception`). -/
def firstAttemptLabel (fmt : String → Bool → Option String) (all_entries : Bool)
    (defect_entry_name : String) : String :=
  match fmt defect_entry_name false with
  | some defect_name =>
    if all_entries then defect_name else rsplitHead '^' defect_name ++ "$"
  | none => defect_entry_name

/-- The collision-retry label: `_format_defect_name` with the site index
included.  This call sits outside the `try`/`except` of the source, so a
formatting failure here (`none`) propagates. -/
def retryLabel (fmt : String → Bool → Option String) (all_entries : Bool)
    (defect_entry_name : String) : Option String :=
  (fmt defect_entry_name true).map
    (fun defect_name =>
      if all_entries then defect_name else rsplitHead '^' defect_name ++ "$")

/-- One iteration of the `for defect_entry_name in for_legend` loop of
`_get_legends_txt`, appending the resolved label to the accumulated list. -/
def legendsStep (fmt : String → Bool → Option String) (all_entries : Bool)
    (legends_txt : List String) (defect_entry_name : String) :
    Option (List String) :=
  let first := firstAttemptLabel fmt all_entries defect_entry_name
  if first ∈ legends_txt then
    (retryLabel fmt all_entries defect_entry_name).bind (fun retried =>
      if retried ∈ legends_txt then
        some (legends_txt ++
          [suffixWhile legends_txt (legends_txt.length + 1) 1 retried])
      else some (legends_txt ++ [retried]))
  else some (legends_txt ++ [first])

/-- The loop of `_get_legends_txt` over all names. -/
def legendsLoop (fmt : String → Bool → Option String) (all_entries : Bool)
    (legends_txt : List String) : List String → Option (List String)
  | [] => some legends_txt
  | defect_entry_name :: rest =>
    (legendsStep fmt all_entries legends_txt defect_entry_name).bind
      (fun legends_txt' => legendsLoop fmt all_entries legends_txt' rest)

/-- Model of `_get_legends_txt(for_legend, all_entries=False)` with the external
`_format_defect_name` supplied as the oracle `fmt`; `none` models an exception
escaping the function. -/
def _get_legends_txt (fmt : String → Bool → Option String)
    (for_legend : List String) (all_entries : Bool) : Option (List String) :=
  legendsLoop fmt all_entries [] for_legend

/-! Concrete instances used by the witnesses and counterexamples below. -/

/-- A positively charged entry of the species `d`. -/
def entP : DefectEntry := ⟨"d", 1⟩

/-- A negatively charged entry of the species `d`. -/
def entM : DefectEntry := ⟨"d", -1⟩

/-- A neutral entry of the species `d`. -/
def entZ : DefectEntry := ⟨"d", 0⟩

/-- A diagram whose single species has one transition level exactly at the
lower extrapolation cap `-100`. -/
def exC1 : DefectPhaseDiagram Unit :=
  { entries := []
    stable_entries := fun _ => [entP, entZ]
    transition_level_map := [("d", [(-100, [1, 0])])]
    band_gap := 1
    formation_energy := fun _ _ _ => 0 }

/-- A diagram whose single species has charge states `+1` and `-1` tied at the
transition level `1`, with formation energy `charge * fermi_level`. -/
def exC2 : DefectPhaseDiagram Unit :=
  { entries := [entP, entM]
    stable_entries := fun _ => [entP, entM]
    transition_level_map := [("d", [(1, [1, -1])])]
    band_gap := 2
    formation_energy := fun defect_entry _ fermi_level =>
      (defect_entry.charge_state : ℚ) * fermi_level }

/-- A diagram whose single species `d_0@1` has an empty transition-level map,
so its envelope reuses the all-states line of its only entry `d_0`. -/
def exC3 : DefectPhaseDiagram Unit :=
  { entries := [entZ]
    stable_entries := fun _ => [entZ]
    transition_level_map := [("d_0@1", [])]
    band_gap := 2
    formation_energy := fun _ _ fermi_level => fermi_level }

/-- A diagram whose single species has a transition level whose selected
charge `0` has no matching stable entry at all. -/
def exC10 : DefectPhaseDiagram Unit :=
  { entries := []
    stable_entries := fun _ => []
    transition_level_map := [("d", [(1, [0])])]
    band_gap := 1
    formation_energy := fun _ _ _ => 0 }

/-- A formatter oracle that always produces the same label, forcing the
suffix loop on the second occurrence. -/
def fmtC6 : String → Bool → Option String := fun _ _ => some "QWERTY"

/-- A formatter oracle used for the singleton/invariant witness: it always
fails, so every label falls back to the raw name. -/
def fmtC7 : String → Bool → Option String := fun _ _ => none

/-- A formatter oracle that always raises (models `_format_defect_name`
failing on both the first attempt and the collision retry). -/
def fmtC8 : String → Bool → Option String := fun _ _ => none

/-- The value `_get_formation_energy_lines` computes on `exC1` with
`xlim = (0, 1)`: the envelope x-coordinates `[-100, -100, 100]` repeat the
lower cap because the breakpoint sits exactly at it. -/
def resC1 : (List (String × (List ℚ × List ℚ)) × List ℚ) ×
    (List (String × (List ℚ × List ℚ)) × List ℚ) × ℚ :=
  (([("d", ([-100, -100, 100], [0, 0, 0]))], [0, 0, 0]), (([], []), 0))

/-- The value `_get_formation_energy_lines` computes on `exC2` with
`xlim = (0, 2)`. -/
def resC2 : (List (String × (List ℚ × List ℚ)) × List ℚ) ×
    (List (String × (List ℚ × List ℚ)) × List ℚ) × ℚ :=
  (([("d", ([-100, 1, 100], [-100, 1, -100]))], [0, 1, -2]),
   (([("d_1", ([-100, 100], [-100, 100])), ("d_-1", ([-100, 100], [100, -100]))],
     [0, 2, 0, 2, 0, -2, 0, -2]), 0))

/-- The value `_get_formation_energy_lines` computes on `exC3` with
`xlim = (0, 2)`. -/
def resC3 : (List (String × (List ℚ × List ℚ)) × List ℚ) ×
    (List (String × (List ℚ × List ℚ)) × List ℚ) × ℚ :=
  (([("d_0@1", ([-100, 100], [-100, 100]))], [0, 2]),
   (([("d_0", ([-100, 100], [-100, 100]))], [0, 2, 0, 2]), 0))

/-! Helper lemmas about the dict model. -/

theorem lookupStr_assocSet_self {α : Type} (m : List (String × α)) (k : String) (v : α) :
    lookupStr (assocSet m k v) k = some v := by
  induction m with
  | nil => simp [assocSet, lookupStr]
  | cons p rest ih =>
    obtain ⟨k', v'⟩ := p
    by_cases h : k' = k
    · simp [assocSet, lookupStr, h]
    · simp [assocSet, lookupStr, h, ih]

theorem lookupStr_assocSet_ne {α : Type} (m : List (String × α)) (k k' : String) (v : α)
    (hne : k' ≠ k) : lookupStr (assocSet m k v) k' = lookupStr m k' := by
  induction m with
  | nil => simp [assocSet, lookupStr, Ne.symm hne]
  | cons p rest ih =>
    obtain ⟨k'', v''⟩ := p
    by_cases h : k'' = k
    · subst h
      simp [assocSet, lookupStr, Ne.symm hne]
    · simp [assocSet, lookupStr, h, ih]

/-! Helper lemmas about the matching loops. -/

theorem lastMatch_foldl (stable : List DefectEntry) (charge : Int)
    (init : Option DefectEntry) :
    stable.foldl
        (fun acc defect_entry =>
          if defect_entry.charge_state = charge then some defect_entry else acc)
        init
      = (lastMatch stable charge).elim init some := by
  induction stable generalizing init with
  | nil => simp [lastMatch]
  | cons e rest ih =>
    by_cases h : e.charge_state = charge
    · have hl : lastMatch (e :: rest) charge
          = (lastMatch rest charge).elim (some e) some := by
        simp [lastMatch, h]
        exact ih (some e)
      simp only [List.foldl_cons, if_pos h, hl, ih (some e)]
      cases lastMatch rest charge <;> rfl
    · have hl : lastMatch (e :: rest) charge = lastMatch rest charge := by
        simp [lastMatch, h]
      simp only [List.foldl_cons, if_neg h, hl, ih init]

theorem assignLoop1_eq (stable : List DefectEntry) (charge : Int)
    (f : DefectEntry → ℚ) (init : Option ℚ) :
    assignLoop1 stable charge f init
      = (lastMatch stable charge).elim init (fun e => some (f e)) := by
  induction stable generalizing init with
  | nil => simp [assignLoop1, lastMatch]
  | cons e rest ih =>
    by_cases h : e.charge_state = charge
    · have hl : lastMatch (e :: rest) charge
          = (lastMatch rest charge).elim (some e) some := by
        simp [lastMatch, h]
        exact lastMatch_foldl rest charge (some e)
      simp only [assignLoop1, List.foldl_cons, if_pos h, hl]
      have := ih (some (f e))
      simp only [assignLoop1] at this
      rw [this]
      cases lastMatch rest charge <;> rfl
    · have hl : lastMatch (e :: rest) charge = lastMatch rest charge := by
        simp [lastMatch, h]
      simp only [assignLoop1, List.foldl_cons, if_neg h, hl]
      have := ih init
      simp only [assignLoop1] at this
      rw [this]

theorem assignLoop2_eq (stable : List DefectEntry) (charge : Int)
    (f g : DefectEntry → ℚ) (init : Option ℚ × Option ℚ) :
    assignLoop2 stable charge f g init
      = (lastMatch stable charge).elim init (fun e => (some (f e), some (g e))) := by
  induction stable generalizing init with
  | nil => simp [assignLoop2, lastMatch]
  | cons e rest ih =>
    by_cases h : e.charge_state = charge
    · have hl : lastMatch (e :: rest) charge
          = (lastMatch rest charge).elim (some e) some := by
        simp [lastMatch, h]
        exact lastMatch_foldl rest charge (some e)
      simp only [assignLoop2, List.foldl_cons, if_pos h, hl]
      have := ih (some (f e), some (g e))
      simp only [assignLoop2] at this
      rw [this]
      cases lastMatch rest charge <;> rfl
    · have hl : lastMatch (e :: rest) charge = lastMatch rest charge := by
        simp [lastMatch, h]
      simp only [assignLoop2, List.foldl_cons, if_neg h, hl]
      have := ih init
      simp only [assignLoop2] at this
      rw [this]


/-! Helper lemmas about the breakpoint loop. -/

theorem tlPointsLoop_map_fst (stable : List DefectEntry) (Ef : DefectEntry → ℚ → ℚ)
    (def_tl : List (ℚ × List Int)) :
    ∀ (flist : List ℚ) (v0 : ℚ) (pts : List (ℚ × ℚ)) (feEnd : ℚ),
      tlPointsLoop stable Ef def_tl flist v0 = some (pts, feEnd) →
      pts.map Prod.fst = flist := by
  intro flist
  induction flist with
  | nil =>
    intro v0 pts feEnd h
    simp only [tlPointsLoop, Option.some.injEq, Prod.mk.injEq] at h
    rw [← h.1]
    rfl
  | cons fl rest ih =>
    intro v0 pts feEnd h
    rw [tlPointsLoop] at h
    simp only [Option.bind_eq_some, Option.some.injEq, Prod.mk.injEq] at h
    obtain ⟨charge, hc, v, hv, pr, hr, hp, hf⟩ := h
    rw [← hp, List.map_cons, ih v pr.1 pr.2 hr]

theorem tlPointsLoop_map_snd (stable : List DefectEntry) (Ef : DefectEntry → ℚ → ℚ)
    (def_tl : List (ℚ × List Int)) (mids : ℚ → ℚ) :
    ∀ (flist : List ℚ) (v0 : ℚ) (pts : List (ℚ × ℚ)) (feEnd : ℚ),
      (∀ fl ∈ flist, ∃ c e, tieMaxCharge def_tl fl = some c ∧
        lastMatch stable c = some e ∧ Ef e fl = mids fl) →
      tlPointsLoop stable Ef def_tl flist v0 = some (pts, feEnd) →
      pts.map Prod.snd = flist.map mids := by
  intro flist
  induction flist with
  | nil =>
    intro v0 pts feEnd _ h
    simp only [tlPointsLoop, Option.some.injEq, Prod.mk.injEq] at h
    rw [← h.1]
    rfl
  | cons fl rest ih =>
    intro v0 pts feEnd hmid h
    obtain ⟨c, e, hc', he, hval⟩ := hmid fl (List.mem_cons_self fl rest)
    rw [tlPointsLoop] at h
    simp only [Option.bind_eq_some, Option.some.injEq, Prod.mk.injEq] at h
    obtain ⟨charge, hc, v, hv, pr, hr, hp, hf⟩ := h
    have hcc : charge = c := by
      rw [hc'] at hc
      exact (Option.some.inj hc).symm
    subst hcc
    rw [assignLoop1_eq, he] at hv
    simp only [Option.elim] at hv
    have hvv : v = Ef e fl := (Option.some.inj hv).symm
    rw [← hp, List.map_cons, List.map_cons,
      ih v pr.1 pr.2 (fun x hx => hmid x (List.mem_cons_of_mem fl hx)) hr,
      hvv, hval]

/-! Inversion of the non-empty-branch builder. -/

theorem nonemptyEnvelope_some_elim (stable : List DefectEntry)
    (Ef : DefectEntry → ℚ → ℚ) (xlim : ℚ × ℚ) (def_tl : List (ℚ × List Int))
    (fe0 fl0 fr0 : Option ℚ)
    (out : (List ℚ × List ℚ) × List ℚ × (Option ℚ × Option ℚ × Option ℚ))
    (x0 : ℚ) (restx : List ℚ)
    (horg : (def_tl.map Prod.fst).insertionSort (· ≤ ·) = x0 :: restx)
    (h : nonemptyEnvelope stable Ef xlim def_tl fe0 fl0 fr0 = some out) :
    ∃ first_charge form_en1 fe_left1 pr last_charge form_enR fe_rightR,
      tieMaxCharge def_tl x0 = some first_charge ∧
      (assignLoop2 stable first_charge
          (fun defect_entry => Ef defect_entry lower_cap)
          (fun defect_entry => Ef defect_entry xlim.1)
          (fe0, fl0)).1 = some form_en1 ∧
      (assignLoop2 stable first_charge
          (fun defect_entry => Ef defect_entry lower_cap)
          (fun defect_entry => Ef defect_entry xlim.1)
          (fe0, fl0)).2 = some fe_left1 ∧
      tlPointsLoop stable Ef def_tl (x0 :: restx) form_en1 = some pr ∧
      tieMinCharge def_tl ((x0 :: restx).getLast (List.cons_ne_nil x0 restx))
          = some last_charge ∧
      (assignLoop2 stable last_charge
          (fun defect_entry => Ef defect_entry upper_cap)
          (fun defect_entry => Ef defect_entry xlim.2)
          (some pr.2, fr0)).1 = some form_enR ∧
      (assignLoop2 stable last_charge
          (fun defect_entry => Ef defect_entry upper_cap)
          (fun defect_entry => Ef defect_entry xlim.2)
          (some pr.2, fr0)).2 = some fe_rightR ∧
      out = ((lower_cap :: pr.1.map Prod.fst ++ [upper_cap],
              form_en1 :: pr.1.map Prod.snd ++ [form_enR]),
             fe_left1 :: pr.1.map Prod.snd ++ [fe_rightR],
             (some form_enR, some fe_left1, some fe_rightR)) := by
  rw [nonemptyEnvelope, horg] at h
  simp only [Option.bind_eq_some, Option.some.injEq] at h
  obtain ⟨first_charge, h1, form_en1, h2, fe_left1, h3, pr, h4, last_charge, h5,
    form_enR, h6, fe_rightR, h7, hout⟩ := h
  exact ⟨first_charge, form_en1, fe_left1, pr, last_charge, form_enR, fe_rightR,
    h1, h2, h3, h4, h5, h6, h7, hout.symm⟩

/-! Inversion of the per-species step. -/

theorem processSpecies_nonempty_elim {χ : Type} (dpd : DefectPhaseDiagram χ)
    (dft_chempots : χ) (xlim : ℚ × ℚ)
    (all_lines_xy : List (String × (List ℚ × List ℚ))) (st : EnvState)
    (def_name : String) (t : ℚ × List Int) (ts : List (ℚ × List Int))
    (st' : EnvState)
    (h : processSpecies dpd dft_chempots xlim all_lines_xy st def_name (t :: ts)
        = some st') :
    ∃ out, nonemptyEnvelope (dpd.stable_entries def_name) (efOf dpd dft_chempots)
        xlim (t :: ts) st.form_en st.fe_left st.fe_right = some out ∧
      st'.xy = assocSet st.xy def_name out.1 := by
  simp only [processSpecies, Option.bind_eq_some, Option.some.injEq] at h
  obtain ⟨out, henv, hst⟩ := h
  exact ⟨out, henv, by rw [← hst]⟩

theorem processSpecies_empty_elim {χ : Type} (dpd : DefectPhaseDiagram χ)
    (dft_chempots : χ) (xlim : ℚ × ℚ)
    (all_lines_xy : List (String × (List ℚ × List ℚ))) (st : EnvState)
    (def_name : String) (st' : EnvState)
    (h : processSpecies dpd dft_chempots xlim all_lines_xy st def_name []
        = some st') :
    ∃ line, lookupStr all_lines_xy (rsplitHead '@' def_name) = some line ∧
      st'.xy = assocSet st.xy def_name line := by
  simp only [processSpecies, Option.bind_eq_some] at h
  obtain ⟨line, hl, hm⟩ := h
  refine ⟨line, hl, ?_⟩
  cases hse : dpd.stable_entries def_name with
  | nil => rw [hse] at hm; exact Option.noConfusion hm
  | cons e es =>
    rw [hse] at hm
    have := Option.some.inj hm
    rw [← this]

theorem processSpecies_xy {χ : Type} (dpd : DefectPhaseDiagram χ)
    (dft_chempots : χ) (xlim : ℚ × ℚ)
    (all_lines_xy : List (String × (List ℚ × List ℚ))) (st : EnvState)
    (def_name : String) (def_tl : List (ℚ × List Int)) (st' : EnvState)
    (h : processSpecies dpd dft_chempots xlim all_lines_xy st def_name def_tl
        = some st') :
    ∃ line, st'.xy = assocSet st.xy def_name line := by
  cases def_tl with
  | nil =>
    obtain ⟨line, _, hxy⟩ :=
      processSpecies_empty_elim dpd dft_chempots xlim all_lines_xy st def_name st' h
    exact ⟨line, hxy⟩
  | cons t ts =>
    obtain ⟨out, _, hxy⟩ :=
      processSpecies_nonempty_elim dpd dft_chempots xlim all_lines_xy st def_name
        t ts st' h
    exact ⟨out.1, hxy⟩

/-! Helper lemmas about the per-species loop. -/

theorem runSpecies_append_elim {χ : Type} (dpd : DefectPhaseDiagram χ)
    (dft_chempots : χ) (xlim : ℚ × ℚ)
    (all_lines_xy : List (String × (List ℚ × List ℚ)))
    (l1 l2 : List (String × List (ℚ × List Int))) (st st' : EnvState)
    (h : runSpecies dpd dft_chempots xlim all_lines_xy (l1 ++ l2) st = some st') :
    ∃ stm, runSpecies dpd dft_chempots xlim all_lines_xy l1 st = some stm ∧
      runSpecies dpd dft_chempots xlim all_lines_xy l2 stm = some st' := by
  induction l1 generalizing st with
  | nil => exact ⟨st, rfl, h⟩
  | cons p rest ih =>
    obtain ⟨def_name, def_tl⟩ := p
    rw [List.cons_append, runSpecies] at h
    simp only [Option.bind_eq_some] at h
    obtain ⟨st2, hp, hrest⟩ := h
    obtain ⟨stm, h1, h2⟩ := ih st2 hrest
    refine ⟨stm, ?_, h2⟩
    rw [runSpecies]
    simp only [Option.bind_eq_some]
    exact ⟨st2, hp, h1⟩

theorem runSpecies_preserve {χ : Type} (dpd : DefectPhaseDiagram χ)
    (dft_chempots : χ) (xlim : ℚ × ℚ)
    (all_lines_xy : List (String × (List ℚ × List ℚ))) (s : String) :
    ∀ (l : List (String × List (ℚ × List Int))) (st st' : EnvState),
      runSpecies dpd dft_chempots xlim all_lines_xy l st = some st' →
      s ∉ l.map Prod.fst →
      lookupStr st'.xy s = lookupStr st.xy s := by
  intro l
  induction l with
  | nil =>
    intro st st' h _
    rw [runSpecies] at h
    rw [← Option.some.inj h]
  | cons p rest ih =>
    intro st st' h hs
    obtain ⟨def_name, def_tl⟩ := p
    rw [runSpecies] at h
    simp only [Option.bind_eq_some] at h
    obtain ⟨st2, hp, hrest⟩ := h
    simp only [List.map_cons, List.mem_cons, not_or] at hs
    obtain ⟨line, hxy⟩ :=
      processSpecies_xy dpd dft_chempots xlim all_lines_xy st def_name def_tl st2 hp
    rw [ih st2 st' hrest hs.2, hxy, lookupStr_assocSet_ne st.xy def_name s line hs.1]

theorem runSpecies_lookup {χ : Type} (dpd : DefectPhaseDiagram χ)
    (dft_chempots : χ) (xlim : ℚ × ℚ)
    (all_lines_xy : List (String × (List ℚ × List ℚ)))
    (tlm : List (String × List (ℚ × List Int))) (s : String)
    (tl : List (ℚ × List Int)) (st0 stF : EnvState)
    (hnd : (tlm.map Prod.fst).Nodup) (hmem : (s, tl) ∈ tlm)
    (hrun : runSpecies dpd dft_chempots xlim all_lines_xy tlm st0 = some stF) :
    ∃ st1 st2, processSpecies dpd dft_chempots xlim all_lines_xy st1 s tl = some st2 ∧
      lookupStr stF.xy s = lookupStr st2.xy s := by
  obtain ⟨l1, l2, rfl⟩ := List.append_of_mem hmem
  have hs2 : s ∉ l2.map Prod.fst := by
    rw [List.map_append, List.map_cons] at hnd
    have h2 := hnd.of_append_right
    exact (List.nodup_cons.mp h2).1
  obtain ⟨stm, _, h2⟩ :=
    runSpecies_append_elim dpd dft_chempots xlim all_lines_xy l1 ((s, tl) :: l2)
      st0 stF hrun
  rw [runSpecies] at h2
  simp only [Option.bind_eq_some] at h2
  obtain ⟨st2, hp, hrest⟩ := h2
  exact ⟨stm, st2, hp,
    runSpecies_preserve dpd dft_chempots xlim all_lines_xy s l2 st2 stF hrest hs2⟩

/-! Inversion of the top-level function. -/

theorem gfel_some_elim {χ : Type} (dpd : DefectPhaseDiagram χ) (dft_chempots : χ)
    (xlim : ℚ × ℚ)
    (r : (List (String × (List ℚ × List ℚ)) × List ℚ) ×
         (List (String × (List ℚ × List ℚ)) × List ℚ) × ℚ)
    (h : _get_formation_energy_lines dpd dft_chempots xlim = some r) :
    ∃ stF, runSpecies dpd dft_chempots xlim (buildAllLines dpd dft_chempots xlim).1
        dpd.transition_level_map initEnvState = some stF ∧
      r = ((stF.xy, stF.y_range_vals), buildAllLines dpd dft_chempots xlim, stF.ymin) := by
  rw [_get_formation_energy_lines] at h
  simp only [Option.bind_eq_some, Option.some.injEq] at h
  obtain ⟨stF, hrun, hr⟩ := h
  exact ⟨stF, hrun, hr.symm⟩

/-! Helper lemmas about the all-states builder. -/

theorem allLinesFold_snd {χ : Type} (dpd : DefectPhaseDiagram χ) (dft_chempots : χ)
    (xlim : ℚ × ℚ) :
    ∀ (l : List DefectEntry) (acc : List (String × (List ℚ × List ℚ)) × List ℚ),
      (l.foldl
        (fun acc defect_entry =>
          (assocSet acc.1 (entryKey defect_entry)
            ([lower_cap, upper_cap],
             [efOf dpd dft_chempots defect_entry lower_cap,
              efOf dpd dft_chempots defect_entry upper_cap]),
           acc.2 ++
            [efOf dpd dft_chempots defect_entry xlim.1,
             efOf dpd dft_chempots defect_entry xlim.2,
             efOf dpd dft_chempots defect_entry xlim.1,
             efOf dpd dft_chempots defect_entry xlim.2])) acc).2
      = acc.2 ++ l.flatMap (fun defect_entry =>
            [efOf dpd dft_chempots defect_entry xlim.1,
             efOf dpd dft_chempots defect_entry xlim.2,
             efOf dpd dft_chempots defect_entry xlim.1,
             efOf dpd dft_chempots defect_entry xlim.2]) := by
  intro l
  induction l with
  | nil => intro acc; simp
  | cons e rest ih =>
    intro acc
    simp only [List.foldl_cons, ih, List.flatMap_cons, List.append_assoc]

theorem allLinesFold_preserve {χ : Type} (dpd : DefectPhaseDiagram χ)
    (dft_chempots : χ) (xlim : ℚ × ℚ) :
    ∀ (l : List DefectEntry) (acc : List (String × (List ℚ × List ℚ)) × List ℚ)
      (key : String), key ∉ l.map entryKey →
      lookupStr (l.foldl
        (fun acc defect_entry =>
          (assocSet acc.1 (entryKey defect_entry)
            ([lower_cap, upper_cap],
             [efOf dpd dft_chempots defect_entry lower_cap,
              efOf dpd dft_chempots defect_entry upper_cap]),
           acc.2 ++
            [efOf dpd dft_chempots defect_entry xlim.1,
             efOf dpd dft_chempots defect_entry xlim.2,
             efOf dpd dft_chempots defect_entry xlim.1,
             efOf dpd dft_chempots defect_entry xlim.2])) acc).1 key
        = lookupStr acc.1 key := by
  intro l
  induction l with
  | nil => intro acc key _; rfl
  | cons e rest ih =>
    intro acc key hk
    simp only [List.map_cons, List.mem_cons, not_or] at hk
    simp only [List.foldl_cons, ih _ _ hk.2]
    exact lookupStr_assocSet_ne acc.1 (entryKey e) key _ hk.1

theorem allLinesFold_lookup {χ : Type} (dpd : DefectPhaseDiagram χ)
    (dft_chempots : χ) (xlim : ℚ × ℚ) :
    ∀ (l : List DefectEntry) (acc : List (String × (List ℚ × List ℚ)) × List ℚ)
      (defect_entry : DefectEntry), defect_entry ∈ l → (l.map entryKey).Nodup →
      lookupStr (l.foldl
        (fun acc defect_entry =>
          (assocSet acc.1 (entryKey defect_entry)
            ([lower_cap, upper_cap],
             [efOf dpd dft_chempots defect_entry lower_cap,
              efOf dpd dft_chempots defect_entry upper_cap]),
           acc.2 ++
            [efOf dpd dft_chempots defect_entry xlim.1,
             efOf dpd dft_chempots defect_entry xlim.2,
             efOf dpd dft_chempots defect_entry xlim.1,
             efOf dpd dft_chempots defect_entry xlim.2])) acc).1 (entryKey defect_entry)
        = some ([lower_cap, upper_cap],
            [efOf dpd dft_chempots defect_entry lower_cap,
             efOf dpd dft_chempots defect_entry upper_cap]) := by
  intro l
  induction l with
  | nil => intro acc e he _; exact absurd he (List.not_mem_nil e)
  | cons e' rest ih =>
    intro acc e he hnd
    simp only [List.map_cons, List.nodup_cons] at hnd
    rcases List.mem_cons.mp he with heq | hmem
    · subst heq
      simp only [List.foldl_cons]
      rw [allLinesFold_preserve dpd dft_chempots xlim rest _ (entryKey e) hnd.1]
      exact lookupStr_assocSet_self acc.1 (entryKey e) _
    · simp only [List.foldl_cons]
      exact ih _ e hmem hnd.2

/-! Helper lemmas about the legend formatter. -/

theorem insertBeforeLast3_length (s : String) (c : Char) :
    (insertBeforeLast3 s c).length = s.length + 1 := by
  simp only [insertBeforeLast3, String.length]
  simp only [List.length_append, List.length_cons, List.length_take, List.length_drop]
  omega

theorem length_filter_mono {α : Type} (p q : α → Bool) (l : List α)
    (himp : ∀ x, q x = true → p x = true) :
    (l.filter q).length ≤ (l.filter p).length := by
  induction l with
  | nil => simp
  | cons a as ih =>
    cases hq : q a with
    | true =>
      have hp := himp a hq
      simp only [List.filter_cons, hq, hp, if_true, List.length_cons]
      omega
    | false =>
      cases hp : p a with
      | true =>
        simp only [List.filter_cons, hq, hp, if_true, Bool.false_eq_true, if_false,
          List.length_cons]
        omega
      | false =>
        simp only [List.filter_cons, hq, hp, Bool.false_eq_true, if_false]
        exact ih

theorem length_filter_strict {α : Type} (p q : α → Bool) (l : List α) (a : α)
    (ha : a ∈ l) (hpa : p a = true) (hqa : q a = false)
    (himp : ∀ x, q x = true → p x = true) :
    (l.filter q).length < (l.filter p).length := by
  induction l with
  | nil => cases ha
  | cons b bs ih =>
    rcases List.mem_cons.mp ha with heq | hmem
    · subst heq
      simp only [List.filter_cons, hpa, hqa, if_true, Bool.false_eq_true, if_false,
        List.length_cons]
      exact Nat.lt_succ_of_le (length_filter_mono p q bs himp)
    · cases hq : q b with
      | true =>
        have hp := himp b hq
        simp only [List.filter_cons, hq, hp, if_true, List.length_cons]
        exact Nat.succ_lt_succ (ih hmem)
      | false =>
        cases hp : p b with
        | true =>
          simp only [List.filter_cons, hq, hp, if_true, Bool.false_eq_true, if_false,
            List.length_cons]
          exact Nat.lt_succ_of_lt (ih hmem)
        | false =>
          simp only [List.filter_cons, hq, hp, Bool.false_eq_true, if_false]
          exact ih hmem

theorem suffixWhile_not_mem (legends_txt : List String) :
    ∀ (fuel i : Nat) (defect_name : String),
      (legends_txt.filter
        (fun a => decide (defect_name.length ≤ a.length))).length < fuel →
      suffixWhile legends_txt fuel i defect_name ∉ legends_txt := by
  intro fuel
  induction fuel with
  | zero => intro i nm h; exact absurd h (Nat.not_lt_zero _)
  | succ fuel ih =>
    intro i nm h
    rw [suffixWhile]
    by_cases hmem : nm ∈ legends_txt
    · rw [if_pos hmem]
      apply ih
      have hlen := insertBeforeLast3_length nm (Char.ofNat (96 + (i + 1)))
      simp only [hlen]
      have hstrict := length_filter_strict
        (fun a => decide (nm.length ≤ a.length))
        (fun a => decide (nm.length + 1 ≤ a.length))
        legends_txt nm hmem (by simp) (by simp)
        (fun x hx => by
          simp only [decide_eq_true_eq] at hx ⊢
          omega)
      omega
    · rw [if_neg hmem]
      exact hmem

theorem legendsStep_some_elim (fmt : String → Bool → Option String)
    (all_entries : Bool) (legends_txt : List String) (defect_entry_name : String)
    (legends_txt' : List String)
    (h : legendsStep fmt all_entries legends_txt defect_entry_name
        = some legends_txt') :
    ∃ lbl, legends_txt' = legends_txt ++ [lbl] ∧ lbl ∉ legends_txt := by
  simp only [legendsStep] at h
  by_cases h1 : firstAttemptLabel fmt all_entries defect_entry_name ∈ legends_txt
  · rw [if_pos h1] at h
    simp only [Option.bind_eq_some] at h
    obtain ⟨retried, _, h2⟩ := h
    by_cases h3 : retried ∈ legends_txt
    · rw [if_pos h3] at h2
      refine ⟨suffixWhile legends_txt (legends_txt.length + 1) 1 retried,
        (Option.some.inj h2).symm, ?_⟩
      apply suffixWhile_not_mem
      have := List.length_filter_le
        (fun a => decide (retried.length ≤ a.length)) legends_txt
      omega
    · rw [if_neg h3] at h2
      exact ⟨retried, (Option.some.inj h2).symm, h3⟩
  · rw [if_neg h1] at h
    exact ⟨firstAttemptLabel fmt all_entries defect_entry_name,
      (Option.some.inj h).symm, h1⟩

theorem legendsLoop_length (fmt : String → Bool → Option String) (all_entries : Bool) :
    ∀ (l txt out : List String), legendsLoop fmt all_entries txt l = some out →
      out.length = txt.length + l.length := by
  intro l
  induction l with
  | nil =>
    intro txt out h
    rw [legendsLoop] at h
    rw [← Option.some.inj h]
    simp
  | cons nm rest ih =>
    intro txt out h
    rw [legendsLoop] at h
    simp only [Option.bind_eq_some] at h
    obtain ⟨txt', hstep, hloop⟩ := h
    obtain ⟨lbl, rfl, _⟩ := legendsStep_some_elim fmt all_entries txt nm txt' hstep
    rw [ih _ _ hloop]
    simp only [List.length_append, List.length_cons, List.length_nil]
    omega

theorem legendsLoop_nodup (fmt : String → Bool → Option String) (all_entries : Bool) :
    ∀ (l txt out : List String), legendsLoop fmt all_entries txt l = some out →
      txt.Nodup → out.Nodup := by
  intro l
  induction l with
  | nil =>
    intro txt out h hnd
    rw [legendsLoop] at h
    rw [← Option.some.inj h]
    exact hnd
  | cons nm rest ih =>
    intro txt out h hnd
    rw [legendsLoop] at h
    simp only [Option.bind_eq_some] at h
    obtain ⟨txt', hstep, hloop⟩ := h
    obtain ⟨lbl, rfl, hnotmem⟩ := legendsStep_some_elim fmt all_entries txt nm txt' hstep
    refine ih _ _ hloop ?_
    rw [List.nodup_append]
    exact ⟨hnd, List.nodup_singleton lbl,
      fun a ha hb => hnotmem ((List.mem_singleton.mp hb) ▸ ha)⟩

theorem legendsLoop_extends (fmt : String → Bool → Option String) (all_entries : Bool) :
    ∀ (l txt out : List String), legendsLoop fmt all_entries txt l = some out →
      ∃ tail, out = txt ++ tail := by
  intro l
  induction l with
  | nil =>
    intro txt out h
    rw [legendsLoop] at h
    exact ⟨[], by rw [← Option.some.inj h, List.append_nil]⟩
  | cons nm rest ih =>
    intro txt out h
    rw [legendsLoop] at h
    simp only [Option.bind_eq_some] at h
    obtain ⟨txt', hstep, hloop⟩ := h
    obtain ⟨lbl, rfl, _⟩ := legendsStep_some_elim fmt all_entries txt nm txt' hstep
    obtain ⟨tail, htail⟩ := ih _ _ hloop
    exact ⟨lbl :: tail, by rw [htail, List.append_assoc, List.singleton_append]⟩

theorem legendsLoop_firstOcc (fmt : String → Bool → Option String)
    (all_entries : Bool) :
    ∀ (l txt out : List String), legendsLoop fmt all_entries txt l = some out →
      ∀ (j : Nat) (hj : j < l.length),
        firstAttemptLabel fmt all_entries l[j] ∉ out.take (txt.length + j) →
        out[txt.length + j]? = some (firstAttemptLabel fmt all_entries l[j]) := by
  intro l
  induction l with
  | nil =>
    intro txt out _ j hj
    exact absurd hj (Nat.not_lt_zero j)
  | cons nm rest ih =>
    intro txt out h j hj hocc
    rw [legendsLoop] at h
    simp only [Option.bind_eq_some] at h
    obtain ⟨txt', hstep, hloop⟩ := h
    cases j with
    | zero =>
      obtain ⟨tail, htail⟩ := legendsLoop_extends fmt all_entries rest txt' out hloop
      obtain ⟨lbl, hlbl, _⟩ := legendsStep_some_elim fmt all_entries txt nm txt' hstep
      have htake : out.take (txt.length + 0) = txt := by
        rw [htail, hlbl, Nat.add_zero, List.append_assoc, List.take_left]
      rw [htake] at hocc
      simp only [List.getElem_cons_zero] at hocc ⊢
      have hstep' : legendsStep fmt all_entries txt nm = some txt' := hstep
      simp only [legendsStep, if_neg hocc] at hstep'
      have htxt' : txt' = txt ++ [firstAttemptLabel fmt all_entries nm] :=
        (Option.some.inj hstep').symm
      rw [htail, htxt', Nat.add_zero, List.append_assoc, List.getElem?_append,
        if_neg (lt_irrefl txt.length)]
      simp
    | succ j' =>
      have hlen : txt'.length = txt.length + 1 := by
        obtain ⟨lbl, hlbl, _⟩ := legendsStep_some_elim fmt all_entries txt nm txt' hstep
        rw [hlbl]
        simp
      have harith : txt.length + (j' + 1) = txt'.length + j' := by omega
      have hj' : j' < rest.length := by
        simp only [List.length_cons] at hj
        omega
      have hres := ih txt' out hloop j' hj'
      simp only [List.getElem_cons_succ] at hocc ⊢
      rw [harith] at hocc ⊢
      exact hres (by rw [← harith] at hocc; rw [harith] at hocc; exact hocc)

/-! Claim C4. -/

/-- Counterexample to claim C4 as stated: on the non-empty value list `[0]`
with auto-labels enabled, the claim predicts a returned pair, but the code
raises `ZeroDivisionError` evaluating `spacer / ylim[1]` with `ylim[1] = 0`
(modelled as `none`). -/
theorem C4_counterexample : _get_ylim_from_y_range_vals [0] 0 true = none := by
  decide

/-- Claim C4 (amended): for every non-empty value list whose base
`ymax = max + 0.1 * (max - min)` is non-zero, the function returns
`(ymin, max + 0.1 * (max - min))`, and with auto-labels enabled it widens to
`(ymin, max * 1.17)` exactly when `spacer / ymax < 0.145`; in particular
`[0, 2]` without auto-labels gives `(0, 2.2)` and `[0, 1]` with auto-labels
gives `(0, 1.17)`.  (The amendment adds the non-zero proviso: at
`ymax = 0` with auto-labels enabled the source raises `ZeroDivisionError`.) -/
theorem C4_ylim_amended (y_range_vals : List ℚ) (ymin hi lo : ℚ)
    (hmax : y_range_vals.max? = some hi) (hmin : y_range_vals.min? = some lo)
    (hz : hi + (1 : ℚ)/10 * (hi - lo) ≠ 0) :
    _get_ylim_from_y_range_vals y_range_vals ymin false
        = some (ymin, hi + (1 : ℚ)/10 * (hi - lo)) ∧
    _get_ylim_from_y_range_vals y_range_vals ymin true
        = some (if (1 : ℚ)/10 * (hi - lo) / (hi + (1 : ℚ)/10 * (hi - lo)) < 145/1000
                then (ymin, hi * (117/100))
                else (ymin, hi + (1 : ℚ)/10 * (hi - lo))) ∧
    _get_ylim_from_y_range_vals [0, 2] 0 false = some (0, 11/5) ∧
    _get_ylim_from_y_range_vals [0, 1] 0 true = some (0, 117/100) := by
  refine ⟨?_, ?_, by decide, by decide⟩
  · simp only [_get_ylim_from_y_range_vals, hmax, hmin, Bool.false_eq_true, if_false]
  · simp only [_get_ylim_from_y_range_vals, hmax, hmin, if_true, if_neg hz]

/-- Witness for C4: the amended theorem applied to `[0, 1]` with auto-labels
enabled, whose hypotheses hold concretely. -/
theorem C4_ylim_amended_witness :
    ([0, 1] : List ℚ).max? = some 1 ∧ ([0, 1] : List ℚ).min? = some 0 ∧
    (1 : ℚ) + (1 : ℚ)/10 * (1 - 0) ≠ 0 ∧
    _get_ylim_from_y_range_vals [0, 1] 0 true
      = some (if (1 : ℚ)/10 * (1 - 0) / (1 + (1 : ℚ)/10 * (1 - 0)) < 145/1000
              then ((0 : ℚ), (1 : ℚ) * (117/100))
              else ((0 : ℚ), 1 + (1 : ℚ)/10 * (1 - 0))) :=
  ⟨by decide, by decide, by decide,
    (C4_ylim_amended [0, 1] 0 1 0 (by decide) (by decide) (by decide)).2.1⟩

/-! Claim C5. -/

/-- Counterexample to claim C5 as stated: on the empty range-value list the
claim says the function fails silently with no exception, but `max()` of an
empty sequence raises a `ValueError` (modelled as `none`). -/
theorem C5_counterexample : _get_ylim_from_y_range_vals [] 0 false = none := rfl

/-- Claim C5 (amended): when the range-value list is empty,
`_get_ylim_from_y_range_vals` raises (a `ValueError` from `max()` of an empty
sequence, modelled as `none`) for every `ymin` and `auto_labels`; it does not
fail silently. -/
theorem C5_empty_raises (ymin : ℚ) (auto_labels : Bool) :
    _get_ylim_from_y_range_vals [] ymin auto_labels = none := rfl

/-! Claim C6. -/

/-- Counterexample to claim C6 as stated: with a formatter that always yields
`"QWERTY"`, the second colliding name receives the inserted letter `'b'`, not
a suffix "starting at 'a'" — the output is `"QWEbRTY"` and not `"QWEaRTY"`
(`i` starts at 1 and is incremented to 2 before `chr(96 + i)` is first used). -/
theorem C6_counterexample :
    _get_legends_txt fmtC6 ["n", "n"] true = some ["QWERTY", "QWEbRTY"] ∧
    ("QWEbRTY" : String) ≠ "QWEaRTY" := ⟨by decide, by decide⟩

/-- Claim C6 (amended): when a formatted label still collides after the
site-index retry, a lowercase letter starting at `'b'` (the unsuffixed first
occurrence playing the role of `'a'`; further letters accumulate rather than
replace on repeated collisions) is inserted immediately before the label's
last three characters; for two input names whose labels collide through
both attempts, the function returns two distinct strings differing only by
the letter `'b'` inserted before the trailing delimiter. -/
theorem C6_suffix_amended (fmt : String → Bool → Option String)
    (all_entries : Bool) (nm1 nm2 s : String)
    (h1 : firstAttemptLabel fmt all_entries nm1 = s)
    (h2 : firstAttemptLabel fmt all_entries nm2 = s)
    (h3 : retryLabel fmt all_entries nm2 = some s) :
    _get_legends_txt fmt [nm1, nm2] all_entries
        = some [s, insertBeforeLast3 s 'b'] ∧
    insertBeforeLast3 s 'b' ≠ s := by
  have hne : insertBeforeLast3 s 'b' ≠ s := by
    intro he
    have hlen := congrArg String.length he
    rw [insertBeforeLast3_length] at hlen
    omega
  refine ⟨?_, hne⟩
  have hchar : Char.ofNat (96 + (1 + 1)) = 'b' := by decide
  have hsw : suffixWhile [s] 2 1 s = insertBeforeLast3 s 'b' := by
    rw [suffixWhile, if_pos (List.mem_singleton.mpr rfl), hchar, suffixWhile,
      if_neg (fun hmem => hne (List.mem_singleton.mp hmem))]
  have hstep1 : legendsStep fmt all_entries [] nm1 = some [s] := by
    simp [legendsStep, h1]
  have hstep2 : legendsStep fmt all_entries [s] nm2
      = some [s, insertBeforeLast3 s 'b'] := by
    simp only [legendsStep, h2, if_pos (List.mem_singleton.mpr rfl), h3,
      Option.some_bind, List.length_singleton]
    have h4 : suffixWhile [s] (1 + 1) 1 s = insertBeforeLast3 s 'b' := hsw
    rw [h4]
    rfl
  rw [_get_legends_txt, legendsLoop, hstep1, Option.some_bind, legendsLoop,
    hstep2, Option.some_bind, legendsLoop]

/-- Witness for C6: the amended theorem applied to the always-`"QWERTY"`
formatter on two colliding names. -/
theorem C6_suffix_amended_witness :
    firstAttemptLabel fmtC6 true "n" = "QWERTY" ∧
    retryLabel fmtC6 true "n" = some "QWERTY" ∧
    (_get_legends_txt fmtC6 ["n", "n"] true
        = some ["QWERTY", insertBeforeLast3 "QWERTY" 'b'] ∧
      insertBeforeLast3 "QWERTY" 'b' ≠ "QWERTY") :=
  ⟨by decide, by decide,
    C6_suffix_amended fmtC6 true "n" "n" "QWERTY" (by decide) (by decide) (by decide)⟩

/-! Claim C7. -/

/-- Claim C7 (confirmed): whenever `_get_legends_txt` returns, it returns one
label per input name in order (equal lengths), the labels are pairwise
distinct, an entry whose first-attempt label has not appeared among the
earlier outputs receives exactly that first-attempt label (first occurrences
are never suffixed), and a singleton name list always maps to exactly its
first-attempt label. -/
theorem C7_legend_invariants (fmt : String → Bool → Option String)
    (all_entries : Bool) (names out : List String)
    (h : _get_legends_txt fmt names all_entries = some out) :
    out.length = names.length ∧ out.Nodup ∧
    (∀ (j : Nat) (hj : j < names.length),
      firstAttemptLabel fmt all_entries names[j] ∉ out.take j →
      out[j]? = some (firstAttemptLabel fmt all_entries names[j])) ∧
    (∀ nm, _get_legends_txt fmt [nm] all_entries
      = some [firstAttemptLabel fmt all_entries nm]) := by
  rw [_get_legends_txt] at h
  refine ⟨?_, ?_, ?_, ?_⟩
  · have hl := legendsLoop_length fmt all_entries names [] out h
    simpa using hl
  · exact legendsLoop_nodup fmt all_entries names [] out h List.nodup_nil
  · intro j hj hocc
    have hres := legendsLoop_firstOcc fmt all_entries names [] out h j hj
      (by simpa using hocc)
    simpa using hres
  · intro nm
    have hstep : legendsStep fmt all_entries [] nm
        = some [firstAttemptLabel fmt all_entries nm] := by
      simp [legendsStep]
    rw [_get_legends_txt, legendsLoop, hstep, Option.some_bind, legendsLoop]

/-- Witness for C7: the invariants instantiated on a two-name list with the
always-failing formatter (labels fall back to the raw names). -/
theorem C7_legend_invariants_witness :
    _get_legends_txt fmtC7 ["a", "b"] false = some ["a", "b"] ∧
    ((["a", "b"] : List String).length = (["a", "b"] : List String).length ∧
      (["a", "b"] : List String).Nodup ∧
      (∀ (j : Nat) (hj : j < (["a", "b"] : List String).length),
        firstAttemptLabel fmtC7 false (["a", "b"] : List String)[j]
            ∉ (["a", "b"] : List String).take j →
        (["a", "b"] : List String)[j]?
          = some (firstAttemptLabel fmtC7 false (["a", "b"] : List String)[j])) ∧
      (∀ nm, _get_legends_txt fmtC7 [nm] false
        = some [firstAttemptLabel fmtC7 false nm])) :=
  ⟨by decide, C7_legend_invariants fmtC7 false ["a", "b"] ["a", "b"] (by decide)⟩

/-! Claim C8. -/

/-- Counterexample to claim C8 as stated: with a formatter that always raises,
the second occurrence of `"x"` collides, the collision-retry call raises, and
the exception escapes `_get_legends_txt` (modelled as `none`) — contradicting
"no exception is ever propagated, including on the collision-retry path". -/
theorem C8_counterexample : _get_legends_txt fmtC8 ["x", "x"] false = none := by
  decide

/-- Claim C8 (amended): when first-attempt formatting of a name fails, the raw
name is used unmodified and no error escapes that path (a non-colliding name
is simply appended); but when the label collides and the collision-retry
formatting call fails, the exception propagates — that call sits outside the
`try`/`except` of the source. -/
theorem C8_fallback_amended (fmt : String → Bool → Option String)
    (all_entries : Bool) (legends_txt : List String) (defect_entry_name : String)
    (hfail : fmt defect_entry_name false = none) :
    firstAttemptLabel fmt all_entries defect_entry_name = defect_entry_name ∧
    (defect_entry_name ∉ legends_txt →
      legendsStep fmt all_entries legends_txt defect_entry_name
        = some (legends_txt ++ [defect_entry_name])) ∧
    (defect_entry_name ∈ legends_txt → fmt defect_entry_name true = none →
      legendsStep fmt all_entries legends_txt defect_entry_name = none) := by
  have hfa : firstAttemptLabel fmt all_entries defect_entry_name
      = defect_entry_name := by
    rw [firstAttemptLabel, hfail]
  refine ⟨hfa, ?_, ?_⟩
  · intro hnot
    simp only [legendsStep, hfa, if_neg hnot]
  · intro hmem hfail2
    simp only [legendsStep, hfa, if_pos hmem, retryLabel, hfail2]
    rfl

/-- Witness for C8: the amended theorem applied to the always-failing
formatter with the accumulated list `["x"]` and the colliding name `"x"`. -/
theorem C8_fallback_amended_witness :
    fmtC8 "x" false = none ∧
    (firstAttemptLabel fmtC8 false "x" = "x" ∧
      ("x" ∉ (["x"] : List String) →
        legendsStep fmtC8 false ["x"] "x" = some (["x"] ++ ["x"])) ∧
      ("x" ∈ (["x"] : List String) → fmtC8 "x" true = none →
        legendsStep fmtC8 false ["x"] "x" = none)) :=
  ⟨rfl, C8_fallback_amended fmtC8 false ["x"] "x" rfl⟩

/-! Shared concrete evaluations used by the witnesses below. -/

theorem exC2_eval : _get_formation_energy_lines exC2 () (0, 2) = some resC2 := by
  decide

theorem exC3_eval : _get_formation_energy_lines exC3 () (0, 2) = some resC3 := by
  decide

/-! Claim C9. -/

/-- Claim C9 (confirmed): the all-states builder stores, for every defect
entry (assuming the `name_charge` keys are distinct, as they are for distinct
entries of a diagram), the two-point line
`([lower_cap, upper_cap], [E_f(entry, chempots, lower_cap),
E_f(entry, chempots, upper_cap)])`, and the all-entries range collection
consists, per entry, of the formation energies at the two `xlim` window edges
(each edge value accumulated twice per entry by the nested loop); this pair is
exactly the second component of `_get_formation_energy_lines`' result. -/
theorem C9_all_states_builder {χ : Type} (dpd : DefectPhaseDiagram χ)
    (dft_chempots : χ) (xlim : ℚ × ℚ) (defect_entry : DefectEntry)
    (hnd : (dpd.entries.map entryKey).Nodup) (hmem : defect_entry ∈ dpd.entries) :
    lookupStr (buildAllLines dpd dft_chempots xlim).1 (entryKey defect_entry)
        = some ([lower_cap, upper_cap],
            [efOf dpd dft_chempots defect_entry lower_cap,
             efOf dpd dft_chempots defect_entry upper_cap]) ∧
    (buildAllLines dpd dft_chempots xlim).2
        = dpd.entries.flatMap (fun e =>
            [efOf dpd dft_chempots e xlim.1, efOf dpd dft_chempots e xlim.2,
             efOf dpd dft_chempots e xlim.1, efOf dpd dft_chempots e xlim.2]) ∧
    (∀ r, _get_formation_energy_lines dpd dft_chempots xlim = some r →
      r.2.1 = buildAllLines dpd dft_chempots xlim) := by
  refine ⟨?_, ?_, ?_⟩
  · exact allLinesFold_lookup dpd dft_chempots xlim dpd.entries ([], [])
      defect_entry hmem hnd
  · have hsnd := allLinesFold_snd dpd dft_chempots xlim dpd.entries ([], [])
    simpa [buildAllLines] using hsnd
  · intro r hr
    obtain ⟨stF, _, hrr⟩ := gfel_some_elim dpd dft_chempots xlim r hr
    rw [hrr]

/-- Witness for C9: the builder facts instantiated on the two-entry diagram
`exC2`. -/
theorem C9_all_states_builder_witness :
    (exC2.entries.map entryKey).Nodup ∧ entP ∈ exC2.entries ∧
    (lookupStr (buildAllLines exC2 () (0, 2)).1 (entryKey entP)
        = some ([lower_cap, upper_cap],
            [efOf exC2 () entP lower_cap, efOf exC2 () entP upper_cap]) ∧
      (buildAllLines exC2 () (0, 2)).2
        = exC2.entries.flatMap (fun e =>
            [efOf exC2 () e (0, (2 : ℚ)).1, efOf exC2 () e (0, (2 : ℚ)).2,
             efOf exC2 () e (0, (2 : ℚ)).1, efOf exC2 () e (0, (2 : ℚ)).2]) ∧
      (∀ r, _get_formation_energy_lines exC2 () (0, 2) = some r →
        r.2.1 = buildAllLines exC2 () (0, 2))) :=
  ⟨by decide, by decide,
    C9_all_states_builder exC2 () (0, 2) entP (by decide) (by decide)⟩

/-! Claim C3. -/

/-- Claim C3 (confirmed): for a species whose transition-level map entry is
empty, the envelope polyline stored in `xy` is exactly the all-states line
stored under the species' entry key `def_name.rsplit("@", 1)[0]` — the same
x- and y-sequences. -/
theorem C3_empty_tl_reuses_all_states {χ : Type} (dpd : DefectPhaseDiagram χ)
    (dft_chempots : χ) (xlim : ℚ × ℚ) (def_name : String)
    (r : (List (String × (List ℚ × List ℚ)) × List ℚ) ×
         (List (String × (List ℚ × List ℚ)) × List ℚ) × ℚ)
    (L : List ℚ × List ℚ)
    (hnd : (dpd.transition_level_map.map Prod.fst).Nodup)
    (hmem : (def_name, ([] : List (ℚ × List Int))) ∈ dpd.transition_level_map)
    (hrun : _get_formation_energy_lines dpd dft_chempots xlim = some r)
    (hline : lookupStr r.2.1.1 (rsplitHead '@' def_name) = some L) :
    lookupStr r.1.1 def_name = some L := by
  obtain ⟨stF, hrunS, hr⟩ := gfel_some_elim dpd dft_chempots xlim r hrun
  subst hr
  have hline' : lookupStr (buildAllLines dpd dft_chempots xlim).1
      (rsplitHead '@' def_name) = some L := hline
  obtain ⟨st1, st2, hproc, hlook⟩ := runSpecies_lookup dpd dft_chempots xlim
    (buildAllLines dpd dft_chempots xlim).1 dpd.transition_level_map def_name []
    initEnvState stF hnd hmem hrunS
  obtain ⟨line, hl2, hxy⟩ := processSpecies_empty_elim dpd dft_chempots xlim
    (buildAllLines dpd dft_chempots xlim).1 st1 def_name st2 hproc
  have hLL : line = L := by
    rw [hl2] at hline'
    exact Option.some.inj hline'
  show lookupStr stF.xy def_name = some L
  rw [hlook, hxy, hLL]
  exact lookupStr_assocSet_self st1.xy def_name L

/-- Witness for C3: the reuse property instantiated on the diagram `exC3`,
whose species `d_0@1` has an empty transition-level map; its envelope line
equals the all-states line stored under the key `d_0`. -/
theorem C3_empty_tl_reuses_all_states_witness :
    (exC3.transition_level_map.map Prod.fst).Nodup ∧
    ("d_0@1", ([] : List (ℚ × List Int))) ∈ exC3.transition_level_map ∧
    _get_formation_energy_lines exC3 () (0, 2) = some resC3 ∧
    lookupStr resC3.2.1.1 (rsplitHead '@' "d_0@1")
      = some (([-100, 100], [-100, 100]) : List ℚ × List ℚ) ∧
    lookupStr resC3.1.1 "d_0@1"
      = some (([-100, 100], [-100, 100]) : List ℚ × List ℚ) :=
  ⟨by decide, by decide, exC3_eval, by decide,
    C3_empty_tl_reuses_all_states exC3 () (0, 2) "d_0@1" resC3
      ([-100, 100], [-100, 100]) (by decide) (by decide) exC3_eval (by decide)⟩

/-! Claim C1. -/

/-- Counterexample to claim C1 as stated: on a diagram whose single species
has its one transition level exactly at the lower extrapolation cap `-100`,
the envelope is built with x-coordinates `[-100, -100, 100]` (the run
completes normally), which are not strictly increasing. -/
theorem C1_counterexample :
    _get_formation_energy_lines exC1 () (0, 1) = some resC1 ∧
    ¬ List.Chain' (· < ·) ([-100, -100, 100] : List ℚ) :=
  ⟨by decide, fun hch => absurd (List.chain'_cons.mp hch).1 (lt_irrefl _)⟩

/-- Claim C1 (amended): for every species whose transition-level map is
non-empty with `k` breakpoints, provided the run completes without an
exception and every breakpoint lies strictly between the extrapolation caps
`-100` and `100`, the envelope polyline has exactly `k + 2` points — the
lower cap, the breakpoints in ascending order, the upper cap — and its
x-coordinates are strictly increasing.  (The amendment adds the
strictly-between-the-caps proviso, without which the count still holds but
strict monotonicity fails.) -/
theorem C1_envelope_points_amended {χ : Type} (dpd : DefectPhaseDiagram χ)
    (dft_chempots : χ) (xlim : ℚ × ℚ) (def_name : String)
    (def_tl : List (ℚ × List Int))
    (r : (List (String × (List ℚ × List ℚ)) × List ℚ) ×
         (List (String × (List ℚ × List ℚ)) × List ℚ) × ℚ)
    (hnd : (dpd.transition_level_map.map Prod.fst).Nodup)
    (hmem : (def_name, def_tl) ∈ dpd.transition_level_map)
    (hne : def_tl ≠ [])
    (hknd : (def_tl.map Prod.fst).Nodup)
    (hbnd : ∀ x ∈ def_tl.map Prod.fst, lower_cap < x ∧ x < upper_cap)
    (hrun : _get_formation_energy_lines dpd dft_chempots xlim = some r) :
    ∃ ys, lookupStr r.1.1 def_name
        = some (lower_cap :: (def_tl.map Prod.fst).insertionSort (· ≤ ·)
            ++ [upper_cap], ys) ∧
      ys.length = def_tl.length + 2 ∧
      (lower_cap :: (def_tl.map Prod.fst).insertionSort (· ≤ ·)
          ++ [upper_cap]).length = def_tl.length + 2 ∧
      List.Chain' (· < ·)
        (lower_cap :: (def_tl.map Prod.fst).insertionSort (· ≤ ·)
          ++ [upper_cap]) := by
  have hlen_sort : ((def_tl.map Prod.fst).insertionSort (· ≤ ·)).length
      = def_tl.length := by
    rw [(List.perm_insertionSort _ _).length_eq, List.length_map]
  obtain ⟨x0, restx, horg⟩ : ∃ x0 restx,
      (def_tl.map Prod.fst).insertionSort (· ≤ ·) = x0 :: restx := by
    cases hcase : (def_tl.map Prod.fst).insertionSort (· ≤ ·) with
    | nil =>
      exfalso
      rw [hcase] at hlen_sort
      exact hne (List.length_eq_zero.mp hlen_sort.symm)
    | cons a b => exact ⟨a, b, rfl⟩
  have hsorted : List.Sorted (· ≤ ·) (x0 :: restx) := by
    rw [← horg]
    exact List.sorted_insertionSort _ _
  have hnodup : (x0 :: restx).Nodup := by
    rw [← horg]
    exact ((List.perm_insertionSort _ _).nodup_iff).mpr hknd
  have hmemiff : ∀ x, x ∈ x0 :: restx ↔ x ∈ def_tl.map Prod.fst := by
    intro x
    rw [← horg]
    exact (List.perm_insertionSort _ _).mem_iff
  rw [horg] at hlen_sort
  obtain ⟨stF, hrunS, hr⟩ := gfel_some_elim dpd dft_chempots xlim r hrun
  subst hr
  obtain ⟨st1, st2, hproc, hlook⟩ := runSpecies_lookup dpd dft_chempots xlim
    (buildAllLines dpd dft_chempots xlim).1 dpd.transition_level_map def_name
    def_tl initEnvState stF hnd hmem hrunS
  obtain ⟨t, ts, rfl⟩ : ∃ t ts, def_tl = t :: ts := by
    cases def_tl with
    | nil => exact absurd rfl hne
    | cons t ts => exact ⟨t, ts, rfl⟩
  obtain ⟨out, henv, hxy⟩ := processSpecies_nonempty_elim dpd dft_chempots xlim
    (buildAllLines dpd dft_chempots xlim).1 st1 def_name t ts st2 hproc
  obtain ⟨fc, fe1, fl1, pr, lc, feR, frR, hq1, hq2, hq3, hq4, hq5, hq6, hq7, hout⟩ :=
    nonemptyEnvelope_some_elim _ _ _ _ _ _ _ out x0 restx horg henv
  have hfst : pr.1.map Prod.fst = x0 :: restx :=
    tlPointsLoop_map_fst _ _ _ (x0 :: restx) fe1 pr.1 pr.2 hq4
  have hprlen : pr.1.length = (x0 :: restx).length := by
    rw [← hfst, List.length_map]
  rw [horg]
  refine ⟨fe1 :: pr.1.map Prod.snd ++ [feR], ?_, ?_, ?_, ?_⟩
  · rw [hlook, hxy, hout, lookupStr_assocSet_self, hfst]
  · simp only [List.length_cons, List.length_append, List.length_map,
      List.length_nil]
    have hl1 : pr.1.length = (x0 :: restx).length := hprlen
    simp only [List.length_cons] at hl1 hlen_sort ⊢
    omega
  · simp only [List.length_cons, List.length_append, List.length_nil]
    simp only [List.length_cons] at hlen_sort
    omega
  · apply List.Pairwise.chain'
    have hlt : List.Sorted (· < ·) (x0 :: restx) := hsorted.lt_of_le hnodup
    rw [List.pairwise_append]
    refine ⟨?_, List.pairwise_singleton _ _, ?_⟩
    · rw [List.pairwise_cons]
      refine ⟨?_, hlt⟩
      intro b hb
      exact (hbnd b ((hmemiff b).mp hb)).1
    · intro a ha b hb
      rw [List.mem_singleton.mp hb]
      rcases List.mem_cons.mp ha with rfl | has
      · norm_num [lower_cap, upper_cap]
      · exact (hbnd a ((hmemiff a).mp has)).2

/-- Witness for C1: the amended statement instantiated on `exC2`, whose single
breakpoint `1` lies strictly between the caps. -/
theorem C1_envelope_points_amended_witness :
    (exC2.transition_level_map.map Prod.fst).Nodup ∧
    ("d", [((1 : ℚ), [(1 : Int), -1])]) ∈ exC2.transition_level_map ∧
    ([((1 : ℚ), [(1 : Int), -1])] : List (ℚ × List Int)) ≠ [] ∧
    (([((1 : ℚ), [(1 : Int), -1])] : List (ℚ × List Int)).map Prod.fst).Nodup ∧
    (∀ x ∈ ([((1 : ℚ), [(1 : Int), -1])] : List (ℚ × List Int)).map Prod.fst,
      lower_cap < x ∧ x < upper_cap) ∧
    _get_formation_energy_lines exC2 () (0, 2) = some resC2 ∧
    (∃ ys, lookupStr resC2.1.1 "d"
        = some (lower_cap ::
            (([((1 : ℚ), [(1 : Int), -1])] : List (ℚ × List Int)).map
              Prod.fst).insertionSort (· ≤ ·) ++ [upper_cap], ys) ∧
      ys.length = ([((1 : ℚ), [(1 : Int), -1])] : List (ℚ × List Int)).length + 2 ∧
      (lower_cap ::
          (([((1 : ℚ), [(1 : Int), -1])] : List (ℚ × List Int)).map
            Prod.fst).insertionSort (· ≤ ·) ++ [upper_cap]).length
        = ([((1 : ℚ), [(1 : Int), -1])] : List (ℚ × List Int)).length + 2 ∧
      List.Chain' (· < ·)
        (lower_cap ::
          (([((1 : ℚ), [(1 : Int), -1])] : List (ℚ × List Int)).map
            Prod.fst).insertionSort (· ≤ ·) ++ [upper_cap])) :=
  ⟨by decide, by decide, by decide, by decide, by decide, exC2_eval,
    C1_envelope_points_amended exC2 () (0, 2) "d" [((1 : ℚ), [(1 : Int), -1])]
      resC2 (by decide) (by decide) (by decide) (by decide) (by decide) exC2_eval⟩

/-! Claim C2. -/

/-- Claim C2 (confirmed): the envelope builder selects charge states by the
fixed tie-break rule — at the left boundary the maximum charge of the first
breakpoint's tie set, evaluated at the lower cap; at each breakpoint the
maximum charge of its tie set, evaluated at the breakpoint; at the right
boundary the minimum charge of the last breakpoint's tie set, evaluated at
the upper cap — where the energy of a selected charge is read from the last
stable entry carrying that charge. -/
theorem C2_tie_break {χ : Type} (dpd : DefectPhaseDiagram χ) (dft_chempots : χ)
    (xlim : ℚ × ℚ) (def_name : String) (def_tl : List (ℚ × List Int))
    (x0 : ℚ) (restx : List ℚ) (c1 c2 : Int) (e1 e2 : DefectEntry)
    (mids : ℚ → ℚ)
    (r : (List (String × (List ℚ × List ℚ)) × List ℚ) ×
         (List (String × (List ℚ × List ℚ)) × List ℚ) × ℚ)
    (hnd : (dpd.transition_level_map.map Prod.fst).Nodup)
    (hmem : (def_name, def_tl) ∈ dpd.transition_level_map)
    (horg : (def_tl.map Prod.fst).insertionSort (· ≤ ·) = x0 :: restx)
    (hc1 : tieMaxCharge def_tl x0 = some c1)
    (he1 : lastMatch (dpd.stable_entries def_name) c1 = some e1)
    (hc2 : tieMinCharge def_tl
      ((x0 :: restx).getLast (List.cons_ne_nil x0 restx)) = some c2)
    (he2 : lastMatch (dpd.stable_entries def_name) c2 = some e2)
    (hmid : ∀ fl ∈ x0 :: restx, ∃ c e, tieMaxCharge def_tl fl = some c ∧
      lastMatch (dpd.stable_entries def_name) c = some e ∧
      efOf dpd dft_chempots e fl = mids fl)
    (hrun : _get_formation_energy_lines dpd dft_chempots xlim = some r) :
    lookupStr r.1.1 def_name
      = some (lower_cap :: (x0 :: restx) ++ [upper_cap],
              efOf dpd dft_chempots e1 lower_cap :: (x0 :: restx).map mids
                ++ [efOf dpd dft_chempots e2 upper_cap]) := by
  obtain ⟨stF, hrunS, hr⟩ := gfel_some_elim dpd dft_chempots xlim r hrun
  subst hr
  obtain ⟨st1, st2, hproc, hlook⟩ := runSpecies_lookup dpd dft_chempots xlim
    (buildAllLines dpd dft_chempots xlim).1 dpd.transition_level_map def_name
    def_tl initEnvState stF hnd hmem hrunS
  obtain ⟨t, ts, rfl⟩ : ∃ t ts, def_tl = t :: ts := by
    cases def_tl with
    | nil => simp at horg
    | cons t ts => exact ⟨t, ts, rfl⟩
  obtain ⟨out, henv, hxy⟩ := processSpecies_nonempty_elim dpd dft_chempots xlim
    (buildAllLines dpd dft_chempots xlim).1 st1 def_name t ts st2 hproc
  obtain ⟨fc, fe1, fl1, pr, lc, feR, frR, hq1, hq2, hq3, hq4, hq5, hq6, hq7, hout⟩ :=
    nonemptyEnvelope_some_elim _ _ _ _ _ _ _ out x0 restx horg henv
  have hfc : fc = c1 := by
    rw [hq1] at hc1
    exact Option.some.inj hc1
  subst hfc
  rw [assignLoop2_eq, he1] at hq2
  simp only [Option.elim] at hq2
  have hfe1 : fe1 = efOf dpd dft_chempots e1 lower_cap := (Option.some.inj hq2).symm
  have hlc : lc = c2 := by
    rw [hq5] at hc2
    exact Option.some.inj hc2
  subst hlc
  rw [assignLoop2_eq, he2] at hq6
  simp only [Option.elim] at hq6
  have hfeR : feR = efOf dpd dft_chempots e2 upper_cap := (Option.some.inj hq6).symm
  have hfst : pr.1.map Prod.fst = x0 :: restx :=
    tlPointsLoop_map_fst _ _ _ (x0 :: restx) fe1 pr.1 pr.2 hq4
  have hsnd : pr.1.map Prod.snd = (x0 :: restx).map mids :=
    tlPointsLoop_map_snd _ _ _ mids (x0 :: restx) fe1 pr.1 pr.2 hmid hq4
  rw [hlook, hxy, hout, lookupStr_assocSet_self, hfst, hsnd, hfe1, hfeR]

/-- Witness for C2: the tie-break rule instantiated on `exC2` — charges
`{+1, -1}` tied at breakpoint `1`; the left boundary uses charge `+1` at the
lower cap, the breakpoint uses charge `+1` at `1`, the right boundary uses
charge `-1` at the upper cap. -/
theorem C2_tie_break_witness :
    tieMaxCharge [((1 : ℚ), [(1 : Int), -1])] 1 = some 1 ∧
    lastMatch (exC2.stable_entries "d") 1 = some entP ∧
    tieMinCharge [((1 : ℚ), [(1 : Int), -1])]
      (((1 : ℚ) :: []).getLast (List.cons_ne_nil 1 [])) = some (-1) ∧
    lastMatch (exC2.stable_entries "d") (-1) = some entM ∧
    _get_formation_energy_lines exC2 () (0, 2) = some resC2 ∧
    lookupStr resC2.1.1 "d"
      = some (lower_cap :: ((1 : ℚ) :: []) ++ [upper_cap],
              efOf exC2 () entP lower_cap :: ((1 : ℚ) :: []).map (fun fl => fl)
                ++ [efOf exC2 () entM upper_cap]) :=
  ⟨by decide, by decide, by decide, by decide, exC2_eval,
    C2_tie_break exC2 () (0, 2) "d" [((1 : ℚ), [(1 : Int), -1])] 1 [] 1 (-1)
      entP entM (fun fl => fl) resC2 (by decide) (by decide) (by decide)
      (by decide) (by decide) (by decide) (by decide)
      (by
        intro fl hfl
        have hfl1 : fl = 1 := by simpa using hfl
        subst hfl1
        exact ⟨1, entP, by decide, by decide, by decide⟩)
      exC2_eval⟩

/-! Claim C10. -/

/-- Claim C10 (confirmed): in the envelope builder, when the selected charge
of the first breakpoint's tie set has no matching stable entry, the emitted
energy is read from the `form_en` local, which was never assigned for that
selection: if `form_en` is still unbound the whole computation raises
(`UnboundLocalError`, modelled as `none`) — in particular the full
`_get_formation_energy_lines` run on a diagram whose first species hits this
case returns `none` — and if `form_en` holds a stale value `v` from a
previous point or species, the first emitted energy is that stale `v`. -/
theorem C10_unmatched_charge_hazard {χ : Type} (dpd : DefectPhaseDiagram χ)
    (dft_chempots : χ) (xlim : ℚ × ℚ) (def_name : String)
    (def_tl : List (ℚ × List Int)) (x0 : ℚ) (restx : List ℚ)
    (first_charge : Int) (fl0 fr0 : Option ℚ) (v w : ℚ)
    (out : (List ℚ × List ℚ) × List ℚ × (Option ℚ × Option ℚ × Option ℚ))
    (horg : (def_tl.map Prod.fst).insertionSort (· ≤ ·) = x0 :: restx)
    (hc : tieMaxCharge def_tl x0 = some first_charge)
    (hnom : lastMatch (dpd.stable_entries def_name) first_charge = none)
    (htlm : dpd.transition_level_map = [(def_name, def_tl)]) :
    nonemptyEnvelope (dpd.stable_entries def_name) (efOf dpd dft_chempots) xlim
        def_tl none fl0 fr0 = none ∧
    (nonemptyEnvelope (dpd.stable_entries def_name) (efOf dpd dft_chempots) xlim
        def_tl (some v) (some w) fr0 = some out → out.1.2.head? = some v) ∧
    _get_formation_energy_lines dpd dft_chempots xlim = none := by
  have hnone : ∀ (fl0' fr0' : Option ℚ),
      nonemptyEnvelope (dpd.stable_entries def_name) (efOf dpd dft_chempots) xlim
        def_tl none fl0' fr0' = none := by
    intro fl0' fr0'
    rw [nonemptyEnvelope, horg]
    simp only [hc, Option.some_bind, assignLoop2_eq, hnom, Option.elim,
      Option.none_bind]
  refine ⟨hnone fl0 fr0, ?_, ?_⟩
  · intro henv
    obtain ⟨fc, fe1, fl1, pr, lc, feR, frR, hq1, hq2, hq3, hq4, hq5, hq6, hq7, hout⟩ :=
      nonemptyEnvelope_some_elim _ _ _ _ _ _ _ out x0 restx horg henv
    have hfc : fc = first_charge := by
      rw [hq1] at hc
      exact Option.some.inj hc
    subst hfc
    rw [assignLoop2_eq, hnom] at hq2
    simp only [Option.elim] at hq2
    have hfe1 : fe1 = v := (Option.some.inj hq2).symm
    rw [hout]
    simp [hfe1]
  · obtain ⟨t, ts, rfl⟩ : ∃ t ts, def_tl = t :: ts := by
      cases def_tl with
      | nil => simp at horg
      | cons t ts => exact ⟨t, ts, rfl⟩
    rw [_get_formation_energy_lines, htlm]
    simp only [runSpecies, processSpecies, initEnvState, hnone, Option.none_bind]

/-- Witness for C10: the hazard instantiated on `exC10`, whose only species
selects charge `0` at its single breakpoint while its stable-entries list is
empty — the full run returns `none`. -/
theorem C10_unmatched_charge_hazard_witness :
    (([((1 : ℚ), [(0 : Int)])] : List (ℚ × List Int)).map
        Prod.fst).insertionSort (· ≤ ·) = [(1 : ℚ)] ∧
    tieMaxCharge [((1 : ℚ), [(0 : Int)])] 1 = some 0 ∧
    lastMatch (exC10.stable_entries "d") 0 = none ∧
    exC10.transition_level_map = [("d", [((1 : ℚ), [(0 : Int)])])] ∧
    (nonemptyEnvelope (exC10.stable_entries "d") (efOf exC10 ()) (0, 1)
        [((1 : ℚ), [(0 : Int)])] none none none = none ∧
      (nonemptyEnvelope (exC10.stable_entries "d") (efOf exC10 ()) (0, 1)
          [((1 : ℚ), [(0 : Int)])] (some 0) (some 0) none
            = some (([], []), [], (none, none, none)) →
        ((([], []), [], (none, none, none)) :
            (List ℚ × List ℚ) × List ℚ ×
              (Option ℚ × Option ℚ × Option ℚ)).1.2.head? = some 0) ∧
      _get_formation_energy_lines exC10 () (0, 1) = none) :=
  ⟨by decide, by decide, by decide, by decide,
    C10_unmatched_charge_hazard exC10 () (0, 1) "d" [((1 : ℚ), [(0 : Int)])]
      1 [] 0 none none 0 0 (([], []), [], (none, none, none))
      (by decide) (by decide) (by decide) (by decide)⟩
